import Mathlib

/-!
Verification development for the disposable-email-domains generator
(`src/internal/generator/generator.go`, `src/main.go`).

Go strings are modelled as lists of characters (`Str`).  The external
public-suffix library (`golang.org/x/net/publicsuffix`) and the JSON
syntax layer of `encoding/json` are injected as parameters; everything
else is translated directly from the Go source.
-/

/-- A Go string, modelled as its character sequence. -/
abbrev Str := List Char

/-- Embed a Lean string literal as a `Str`. -/
def str (s : String) : Str := s.toList

/-- The whitespace test used by `strings.TrimSpace` (ASCII fragment of
`unicode.IsSpace`). -/
def isSpaceChar (c : Char) : Bool :=
  c = ' ' || c = '\t' || c = '\n' || c = '\x0b' || c = '\x0c' || c = '\r'

/-- `strings.TrimSpace`: drop leading and trailing whitespace. -/
def trimSpace (s : Str) : Str :=
  ((s.dropWhile isSpaceChar).reverse.dropWhile isSpaceChar).reverse

/-- `strings.ToLower`, character-wise (`Char.toLower` covers the basic
latin letters, which is all the generator's domain data uses). -/
def toLowerStr (s : Str) : Str := s.map Char.toLower

/-- `strings.HasPrefix`. -/
def hasPrefixB (p s : Str) : Bool := p.isPrefixOf s

/-- `strings.TrimPrefix`: remove one copy of `p` from the front of `s`
when present, otherwise return `s` unchanged. -/
def trimPrefixStr (p s : Str) : Str :=
  if p.isPrefixOf s then s.drop p.length else s

/-- `strings.TrimSuffix`: remove one copy of `p` from the end of `s`
when present, otherwise return `s` unchanged. -/
def trimSuffixStr (p s : Str) : Str :=
  if p.isSuffixOf s then s.take (s.length - p.length) else s

/-- `normalizeAndFilter` (generator.go:149-160): lowercase, trim, drop
entries that are empty or start with `#`. -/
def normalizeAndFilter (l : List Str) : List Str :=
  l.filterMap fun s0 =>
    let s := trimSpace (toLowerStr s0)
    if s = [] || hasPrefixB ['#'] s then none else some s

/-- `cleanDomains` (generator.go:162-170): per entry, `TrimPrefix "*."`
followed by `TrimPrefix "."`. -/
def cleanDomains (l : List Str) : List Str :=
  l.map fun s => trimPrefixStr ['.'] (trimPrefixStr ['*', '.'] s)

/-- `effectiveTLDPlusOne` (generator.go:195-201).  The call into
`publicsuffix.EffectiveTLDPlusOne` (external library backed by the
public-suffix dataset) is the parameter `ps`; `none` models the library
returning an error.  The wrapper trims one trailing dot and treats the
empty result as an error. -/
def effectiveTLDPlusOne (ps : Str → Option Str) (domain : Str) : Option Str :=
  let d := trimSuffixStr ['.'] domain
  if d = [] then none else ps d

/-- `removeSecureDomainsByETLD1` (generator.go:172-193).  The Go map of
secure keys is modelled by the list of inserted keys (only membership is
used); the loop with `continue` is a filter; the Go pattern
`if et, err := effectiveTLDPlusOne(s); err == nil { use et } else { use s }`
is `(effectiveTLDPlusOne ps s).getD s` (same case split on both sides). -/
def removeSecureDomainsByETLD1 (ps : Str → Option Str) (deny secure : List Str) :
    List Str :=
  let sec : List Str := secure.map fun s => (effectiveTLDPlusOne ps s).getD s
  deny.filter fun d => !(sec.contains ((effectiveTLDPlusOne ps d).getD d))

/-- The comparison key used on both sides of the secure filter: the
entry's eTLD+1 when the computation succeeds, the raw entry itself when
it fails. -/
def keyETLD1 (ps : Str → Option Str) (s : Str) : Str :=
  (effectiveTLDPlusOne ps s).getD s

/-- `uniqueSorted` (generator.go:203-216): insert the non-empty strings
into a set, then sort the keys lexicographically (`sort.Strings`). -/
def uniqueSorted (l : List Str) : List Str :=
  List.insertionSort (· ≤ ·) ((l.filter (· ≠ [])).dedup)

/-- `difference` (generator.go:218-230): keep the elements of `a` that
are not in `b` (the Go set `sb` is modelled by membership in `b`). -/
def difference (a b : List Str) : List Str :=
  a.filter fun s => !(b.contains s)

/-- The pure reconciliation tail of `Run` (generator.go:51-61):
normalization, prefix stripping, secure-domain exclusion, exact-string
difference against allow, and the allow/secure union.  Returns the
final (deny, allow) lists exactly as handed to `writeOutputs`. -/
def pipeline (ps : Str → Option Str) (denyRaw allowRaw secureRaw : List Str) :
    List Str × List Str :=
  let deny := cleanDomains (normalizeAndFilter denyRaw)
  let allow := cleanDomains (normalizeAndFilter allowRaw)
  let secure := cleanDomains (normalizeAndFilter secureRaw)
  let deny2 := removeSecureDomainsByETLD1 ps deny secure
  (difference (uniqueSorted deny2) (uniqueSorted allow),
   uniqueSorted (allow ++ secure))

/-- A JSON value, as produced by `encoding/json`'s syntax layer. -/
inductive Json where
  | null
  | bool (b : Bool)
  | num (n : Int)
  | str (s : Str)
  | arr (elems : List Json)
  | obj (fields : List (Str × Json))

/-- `json.Unmarshal` of one array element into a `string`: a JSON
string decodes to itself, JSON `null` has no effect and leaves the
zero value `""`, every other value is a type error. -/
def unmarshalStringElem : Json → Except Str Str
  | .str s => .ok s
  | .null => .ok []
  | _ => .error (str ("cannot unmarshal value into string"))

/-- Element-wise decoding of a JSON array into strings; the first
element error is reported. -/
def unmarshalStringList : List Json → Except Str (List Str)
  | [] => .ok []
  | e :: es =>
    match unmarshalStringElem e with
    | .ok s =>
      match unmarshalStringList es with
      | .ok rest => .ok (s :: rest)
      | .error err => .error err
    | .error err => .error err

/-- `json.Unmarshal` into `[]string` (the semantics of the call at
generator.go:119): a JSON array decodes element-wise, top-level JSON
`null` leaves the slice `nil` without error, everything else is a type
error. -/
def unmarshalStringSlice : Json → Except Str (List Str)
  | .null => .ok []
  | .arr es => unmarshalStringList es
  | _ => .error (str ("cannot unmarshal value into string slice"))

/-- The decoding part of `fetchJSONStrings` (generator.go:113-123).
The JSON syntax layer is the parameter `parse`; `none` models a syntax
error from `encoding/json`. -/
def decodeJSONStrings (parse : Str → Option Json) (b : Str) :
    Except Str (List Str) :=
  match parse b with
  | none => .error (str ("decode json: syntax error"))
  | some v =>
    match unmarshalStringSlice v with
    | .ok arr => .ok arr
    | .error e => .error ((str ("decode json: ")) ++ e)

/-- `true` exactly on a JSON array whose elements are all strings. -/
def isStringArrayB : Json → Bool
  | .arr es => es.all fun e =>
      match e with
      | .str _ => true
      | _ => false
  | _ => false

/-- The array elements `json.Unmarshal` accepts for a `string` slot:
strings and `null`. -/
def jsonElemOk : Json → Bool
  | .str _ => true
  | .null => true
  | _ => false

/-- The JSON values that `json.Unmarshal` accepts for `[]string`:
`null`, or an array whose elements are strings or `null`. -/
def jsonAccepted : Json → Bool
  | .null => true
  | .arr es => es.all jsonElemOk
  | _ => false

/-- `true` on `Except.ok`. -/
def exceptOk {ε α : Type} : Except ε α → Bool
  | .ok _ => true
  | .error _ => false

/-- `strings.Split(s, "\n")` (the single-character separator case), as
used by `fetchTextLines` (generator.go:105-111) on fetched bytes. -/
def splitOnNl : Str → List Str
  | [] => [[]]
  | c :: rest =>
    if c = '\n' then [] :: splitOnNl rest
    else
      match splitOnNl rest with
      | [] => [[c]]
      | l :: ls => (c :: l) :: ls

/-- The line extraction applied to fetched text content:
`fetchTextLines` splits the body on bare `"\n"` only. -/
def fetchTextLinesPure (b : Str) : List Str := splitOnNl b

/-- The per-line carriage-return handling of `splitLines`
(main.go:70-94): remove one trailing `'\r'` when present. -/
def stripOneCR (l : Str) : Str :=
  if l.getLast? = some '\r' then l.dropLast else l

/-- The index loop of `splitLines` (main.go:70-94); `cur` is the
current segment `s[start:i]`. -/
def splitLinesAux (cur : Str) : Str → List Str
  | [] =>
    let line := stripOneCR cur
    if line = [] then [] else [line]
  | c :: rest =>
    if c = '\n' then stripOneCR cur :: splitLinesAux [] rest
    else splitLinesAux (cur ++ [c]) rest

/-- `splitLines` (main.go:70-94): split on `'\n'`, strip one trailing
`'\r'` per line, drop the final segment when it is empty. -/
def splitLines (s : Str) : List Str := splitLinesAux [] s

/-- Drop the last element of a list of strings when it is empty (the
treatment `splitLines` gives the final segment). -/
def dropLastIfEmpty : List Str → List Str
  | [] => []
  | [l] => if l = [] then [] else [l]
  | l :: l' :: ls => l :: dropLastIfEmpty (l' :: ls)

/-- Join lines with `'\n'` (inverse of `splitOnNl`). -/
def joinNl : List Str → Str
  | [] => []
  | [l] => l
  | l :: l' :: ls => l ++ '\n' :: joinNl (l' :: ls)

/-- Append `cur` onto the first segment of a segment list (used to
relate the accumulator of `splitLinesAux` to `splitOnNl`). -/
def consHead (cur : Str) : List Str → List Str
  | [] => [cur]
  | h :: t => (cur ++ h) :: t

/-- Outcome of one file write; the filesystem is abstracted, `none`
means success, `some e` failure with message `e`. -/
abbrev WriteRes := Option Str

/-- The write sequence of `writeOutputs` (generator.go:232-246): the
writes are attempted in order, stopping at the first failure.  Returns
(indices written successfully — these persist, nothing is rolled back;
indices attempted; first error). -/
def writeSeq (i : Nat) : List WriteRes → List Nat × List Nat × Option Str
  | [] => ([], [], none)
  | none :: rest =>
    let r := writeSeq (i + 1) rest
    (i :: r.1, i :: r.2.1, r.2.2)
  | some e :: _ => ([], [i], some e)

/-- `writeOutputs` over a list of write outcomes (the four outputs of
generator.go:232-246 correspond to a length-4 list). -/
def writeOutputs (w : List WriteRes) : List Nat × List Nat × Option Str :=
  writeSeq 0 w

/-- `fmt.Errorf("%v; %w", err, werr)` at generator.go:65: the fetch
diagnostic, when present, is followed by `"; "` and the write error. -/
def combineErr (diag : Option Str) (werr : Str) : Str :=
  match diag with
  | some d => d ++ (str ("; ")) ++ werr
  | none => werr

/-- The tail of `Run` (generator.go:63-69): a write failure yields zero
counts and the combined error; otherwise the final counts and the
(possibly absent) fetch diagnostic are returned. -/
def runFinish (diag : Option Str) (deny allow : List Str) (w : List WriteRes) :
    Nat × Nat × Option Str :=
  match (writeOutputs w).2.2 with
  | some werr => (0, 0, some (combineErr diag werr))
  | none => (deny.length, allow.length, diag)

/-- A concrete stub public-suffix lookup (the spec's "stub suffix
table"): both `mail.good.net` and `good.net` resolve to the registrable
domain `good.net`; everything else fails. -/
def psStub : Str → Option Str := fun s =>
  if s = str ("mail.good.net") || s = str ("good.net") then some (str ("good.net"))
  else none

/-! ### Helper lemmas -/

lemma toNat_ofNat_valid (n : Nat) (h : n.isValidChar) : (Char.ofNat n).toNat = n := by
  rw [Char.ofNat, dif_pos h]; rfl

lemma toLower_idem (c : Char) : c.toLower.toLower = c.toLower := by
  unfold Char.toLower
  by_cases h : c.toNat ≥ 65 ∧ c.toNat ≤ 90
  · rw [if_pos h]
    have hv : (c.toNat + 32).isValidChar := by
      left; omega
    rw [toNat_ofNat_valid _ hv]
    rw [if_neg (by omega)]
  · rw [if_neg h, if_neg h]

lemma map_toLower_eq_self_iff {l : Str} :
    toLowerStr l = l ↔ ∀ c ∈ l, c.toLower = c := by
  unfold toLowerStr
  induction l with
  | nil => simp
  | cons a t ih => simp [ih]

lemma lowered_of_subset {x y : Str} (hsub : ∀ c, c ∈ x → c ∈ y)
    (hy : toLowerStr y = y) : toLowerStr x = x := by
  rw [map_toLower_eq_self_iff] at hy ⊢
  exact fun c hc => hy c (hsub c hc)

lemma toLowerStr_lowered (s : Str) : toLowerStr (toLowerStr s) = toLowerStr s := by
  rw [map_toLower_eq_self_iff]
  intro c hc
  obtain ⟨c0, _, rfl⟩ := List.mem_map.1 hc
  exact toLower_idem c0

lemma mem_of_mem_trimSpace {c : Char} {s : Str} (h : c ∈ trimSpace s) : c ∈ s := by
  unfold trimSpace at h
  rw [List.mem_reverse] at h
  have h2 := (List.dropWhile_sublist _).mem h
  rw [List.mem_reverse] at h2
  exact (List.dropWhile_sublist _).mem h2

lemma mem_of_mem_trimPrefixStr {c : Char} {p s : Str}
    (h : c ∈ trimPrefixStr p s) : c ∈ s := by
  unfold trimPrefixStr at h
  split at h
  · exact (List.drop_sublist _ _).mem h
  · exact h

lemma nf_mem {x : Str} {l : List Str} (h : x ∈ normalizeAndFilter l) :
    x ≠ [] ∧ toLowerStr x = x := by
  unfold normalizeAndFilter at h
  rw [List.mem_filterMap] at h
  obtain ⟨s0, _, hx⟩ := h
  simp only at hx
  split at hx
  · exact absurd hx (by simp)
  · rename_i hcond
    obtain rfl : trimSpace (toLowerStr s0) = x := by
      simpa using hx
    rw [Bool.or_eq_true, not_or] at hcond
    refine ⟨?_, ?_⟩
    · intro hnil
      exact hcond.1 (by simp [hnil])
    · exact lowered_of_subset (fun c hc => mem_of_mem_trimSpace hc)
        (toLowerStr_lowered s0)

lemma clean_mem {x : Str} {l : List Str} :
    x ∈ cleanDomains l ↔
      ∃ y, y ∈ l ∧ x = trimPrefixStr ['.'] (trimPrefixStr ['*', '.'] y) := by
  unfold cleanDomains
  rw [List.mem_map]
  constructor
  · rintro ⟨y, hy, rfl⟩; exact ⟨y, hy, rfl⟩
  · rintro ⟨y, hy, rfl⟩; exact ⟨y, hy, rfl⟩

lemma clean_lowered {x : Str} {l : List Str} (h : x ∈ cleanDomains l)
    (hl : ∀ y ∈ l, toLowerStr y = y) : toLowerStr x = x := by
  obtain ⟨y, hy, rfl⟩ := clean_mem.1 h
  exact lowered_of_subset
    (fun c hc => mem_of_mem_trimPrefixStr (mem_of_mem_trimPrefixStr hc))
    (hl y hy)

lemma ncd_mem {x : Str} {l : List Str}
    (h : x ∈ cleanDomains (normalizeAndFilter l)) : toLowerStr x = x := by
  exact clean_lowered h fun y hy => (nf_mem hy).2

lemma us_sorted_le (l : List Str) : (uniqueSorted l).Sorted (· ≤ ·) :=
  List.sorted_insertionSort _ _

lemma us_nodup (l : List Str) : (uniqueSorted l).Nodup :=
  ((List.perm_insertionSort _ _).nodup_iff).2 (List.nodup_dedup _)

lemma us_sorted (l : List Str) : (uniqueSorted l).Sorted (· < ·) :=
  (us_sorted_le l).lt_of_le (us_nodup l)

lemma us_mem (l : List Str) (x : Str) :
    x ∈ uniqueSorted l ↔ x ≠ [] ∧ x ∈ l := by
  unfold uniqueSorted
  rw [(List.perm_insertionSort _ _).mem_iff, List.mem_dedup, List.mem_filter]
  simp [and_comm]

lemma us_ext (l l' : List Str) (h : ∀ x, x ∈ l ↔ x ∈ l') :
    uniqueSorted l = uniqueSorted l' := by
  refine List.eq_of_perm_of_sorted ?_ (us_sorted_le l) (us_sorted_le l')
  rw [List.perm_ext_iff_of_nodup (us_nodup l) (us_nodup l')]
  intro a
  rw [us_mem, us_mem]
  exact and_congr_right fun _ => h a

lemma contains_iff_mem (l : List Str) (x : Str) :
    l.contains x = true ↔ x ∈ l := by
  simp [List.contains]

lemma diff_mem (a b : List Str) (x : Str) :
    x ∈ difference a b ↔ x ∈ a ∧ x ∉ b := by
  unfold difference
  rw [List.mem_filter]
  simp [contains_iff_mem]

lemma diff_sublist (a b : List Str) : List.Sublist (difference a b) a :=
  List.filter_sublist a

lemma diff_sorted {a : List Str} (b : List Str) (h : a.Sorted (· < ·)) :
    (difference a b).Sorted (· < ·) :=
  h.sublist (diff_sublist a b)

lemma diff_nodup {a : List Str} (b : List Str) (h : a.Nodup) :
    (difference a b).Nodup :=
  h.sublist (diff_sublist a b)

lemma rs_eq_filter (ps : Str → Option Str) (deny secure : List Str) :
    removeSecureDomainsByETLD1 ps deny secure
      = deny.filter fun d =>
          !((secure.map (keyETLD1 ps)).contains (keyETLD1 ps d)) := by
  unfold removeSecureDomainsByETLD1 keyETLD1
  rfl

lemma rs_sublist (ps : Str → Option Str) (deny secure : List Str) :
    List.Sublist (removeSecureDomainsByETLD1 ps deny secure) deny := by
  rw [rs_eq_filter]
  exact List.filter_sublist _

lemma rs_mem (ps : Str → Option Str) (deny secure : List Str) (d : Str) :
    d ∈ removeSecureDomainsByETLD1 ps deny secure ↔
      d ∈ deny ∧ ¬ ∃ s, s ∈ secure ∧ keyETLD1 ps d = keyETLD1 ps s := by
  rw [rs_eq_filter, List.mem_filter]
  refine and_congr_right fun _ => ?_
  rw [Bool.not_eq_true', ← Bool.not_eq_true, contains_iff_mem, List.mem_map]
  constructor
  · intro h ⟨s, hs, hk⟩
    exact h ⟨s, hs, hk.symm⟩
  · intro h ⟨s, hs, hk⟩
    exact h ⟨s, hs, hk.symm⟩

lemma pipeline_fst (ps : Str → Option Str) (dr ar sr : List Str) :
    (pipeline ps dr ar sr).1
      = difference
          (uniqueSorted (removeSecureDomainsByETLD1 ps
            (cleanDomains (normalizeAndFilter dr))
            (cleanDomains (normalizeAndFilter sr))))
          (uniqueSorted (cleanDomains (normalizeAndFilter ar))) := rfl

lemma pipeline_snd (ps : Str → Option Str) (dr ar sr : List Str) :
    (pipeline ps dr ar sr).2
      = uniqueSorted (cleanDomains (normalizeAndFilter ar)
          ++ cleanDomains (normalizeAndFilter sr)) := rfl

lemma pipeline_fst_mem {ps : Str → Option Str} {dr ar sr : List Str} {x : Str}
    (h : x ∈ (pipeline ps dr ar sr).1) :
    x ≠ [] ∧ x ∈ cleanDomains (normalizeAndFilter dr)
      ∧ x ∉ uniqueSorted (cleanDomains (normalizeAndFilter ar)) := by
  rw [pipeline_fst] at h
  rw [diff_mem] at h
  obtain ⟨h1, h2⟩ := h
  rw [us_mem] at h1
  exact ⟨h1.1, (rs_sublist _ _ _).mem h1.2, h2⟩

lemma pipeline_snd_mem (ps : Str → Option Str) (dr ar sr : List Str) (x : Str) :
    x ∈ (pipeline ps dr ar sr).2 ↔
      x ≠ [] ∧ (x ∈ cleanDomains (normalizeAndFilter ar)
        ∨ x ∈ cleanDomains (normalizeAndFilter sr)) := by
  rw [pipeline_snd, us_mem, List.mem_append]

lemma splitOnNl_ne_nil (s : Str) : splitOnNl s ≠ [] := by
  match s with
  | [] => simp [splitOnNl]
  | c :: rest =>
    unfold splitOnNl
    split
    · simp
    · cases splitOnNl rest <;> simp

lemma joinNl_splitOnNl (s : Str) : joinNl (splitOnNl s) = s := by
  induction s with
  | nil => rfl
  | cons c rest ih =>
    unfold splitOnNl
    by_cases hc : c = '\n'
    · rw [if_pos hc]
      cases hL : splitOnNl rest with
      | nil => exact absurd hL (splitOnNl_ne_nil rest)
      | cons l' ls =>
        rw [hL] at ih
        unfold joinNl
        rw [ih, hc]
        rfl
    · rw [if_neg hc]
      cases hL : splitOnNl rest with
      | nil => exact absurd hL (splitOnNl_ne_nil rest)
      | cons l' ls =>
        rw [hL] at ih
        cases ls with
        | nil =>
          unfold joinNl at ih ⊢
          rw [ih]
        | cons l2 ls2 =>
          unfold joinNl at ih ⊢
          rw [← ih]
          simp

lemma splitOnNl_no_nl {l : Str} {s : Str} (h : l ∈ splitOnNl s) : '\n' ∉ l := by
  induction s generalizing l with
  | nil =>
    simp [splitOnNl] at h
    simp [h]
  | cons c rest ih =>
    unfold splitOnNl at h
    by_cases hc : c = '\n'
    · rw [if_pos hc] at h
      rcases List.mem_cons.1 h with rfl | h2
      · simp
      · exact ih h2
    · rw [if_neg hc] at h
      cases hL : splitOnNl rest with
      | nil => exact absurd hL (splitOnNl_ne_nil rest)
      | cons l' ls =>
        rw [hL] at h
        rcases List.mem_cons.1 h with rfl | h2
        · intro hmem
          rcases List.mem_cons.1 hmem with heq | hmem2
          · exact hc heq.symm
          · exact ih (hL ▸ List.mem_cons_self l' ls) hmem2
        · exact ih (hL ▸ List.mem_cons.2 (Or.inr h2))

lemma consHead_nil_of_ne {L : List Str} (h : L ≠ []) : consHead [] L = L := by
  cases L with
  | nil => exact absurd rfl h
  | cons a t => simp [consHead]

lemma dropLastIfEmpty_cons_cons (a b : Str) (ls : List Str) :
    dropLastIfEmpty (a :: b :: ls) = a :: dropLastIfEmpty (b :: ls) := rfl

lemma splitLinesAux_eq (s : Str) :
    ∀ cur, splitLinesAux cur s
      = dropLastIfEmpty ((consHead cur (splitOnNl s)).map stripOneCR) := by
  induction s with
  | nil =>
    intro cur
    simp [splitLinesAux, splitOnNl, consHead, dropLastIfEmpty]
  | cons c rest ih =>
    intro cur
    unfold splitLinesAux splitOnNl
    by_cases hc : c = '\n'
    · rw [if_pos hc, if_pos hc]
      cases hL : splitOnNl rest with
      | nil => exact absurd hL (splitOnNl_ne_nil rest)
      | cons l' ls =>
        have ih0 := ih []
        rw [hL, consHead_nil_of_ne (by simp)] at ih0
        rw [ih0]
        simp only [consHead, List.nil_append, List.append_nil, List.map_cons]
        rw [dropLastIfEmpty_cons_cons]
    · rw [if_neg hc, if_neg hc]
      cases hL : splitOnNl rest with
      | nil => exact absurd hL (splitOnNl_ne_nil rest)
      | cons l' ls =>
        have ihc := ih (cur ++ [c])
        rw [hL] at ihc
        rw [ihc]
        simp only [consHead, List.append_assoc, List.singleton_append]

lemma splitLines_eq (s : Str) :
    splitLines s = dropLastIfEmpty ((splitOnNl s).map stripOneCR) := by
  unfold splitLines
  rw [splitLinesAux_eq s [], consHead_nil_of_ne (splitOnNl_ne_nil s)]

lemma writeSeq_all_none :
    ∀ (w : List WriteRes) (i : Nat), (∀ x ∈ w, x = none) →
      writeSeq i w = (List.range' i w.length, List.range' i w.length, none) := by
  intro w
  induction w with
  | nil => intro i _; rfl
  | cons x rest ih =>
    intro i h
    obtain rfl : x = none := h x (List.mem_cons_self x rest)
    have hrest : ∀ y ∈ rest, y = none := fun y hy => h y (List.mem_cons.2 (Or.inr hy))
    show (i :: (writeSeq (i + 1) rest).1, i :: (writeSeq (i + 1) rest).2.1,
        (writeSeq (i + 1) rest).2.2) = _
    rw [ih (i + 1) hrest]
    simp [List.range'_succ]

lemma writeSeq_fail :
    ∀ (pre : List WriteRes) (i : Nat) (e : Str) (post : List WriteRes),
      (∀ x ∈ pre, x = none) →
      writeSeq i (pre ++ some e :: post)
        = (List.range' i pre.length, List.range' i (pre.length + 1), some e) := by
  intro pre
  induction pre with
  | nil =>
    intro i e post _
    simp [writeSeq, List.range'_succ]
  | cons x rest ih =>
    intro i e post h
    obtain rfl : x = none := h x (List.mem_cons_self x rest)
    have hrest : ∀ y ∈ rest, y = none := fun y hy => h y (List.mem_cons.2 (Or.inr hy))
    show (i :: (writeSeq (i + 1) (rest ++ some e :: post)).1,
        i :: (writeSeq (i + 1) (rest ++ some e :: post)).2.1,
        (writeSeq (i + 1) (rest ++ some e :: post)).2.2) = _
    rw [ih (i + 1) e post hrest]
    simp [List.range'_succ]

lemma unmarshalStringList_ok (es : List Json) :
    exceptOk (unmarshalStringList es) = es.all jsonElemOk := by
  induction es with
  | nil => rfl
  | cons e es ih =>
    unfold unmarshalStringList
    cases e <;>
      simp only [unmarshalStringElem, jsonElemOk, List.all_cons] <;>
      first
        | (cases h : unmarshalStringList es with
            | ok r => rw [h] at ih; simpa [exceptOk] using ih.symm
            | error r => rw [h] at ih; simpa [exceptOk] using ih.symm)
        | simp [exceptOk]

/-! ### Claim theorems -/

/-- C1: `removeSecureDomainsByETLD1` drops exactly those deny entries
whose eTLD+1 key equals the eTLD+1 key of some secure entry — where each
side's key is the computed eTLD+1 when the computation succeeds and the
raw entry string when it fails (in particular whenever the entry is
empty after trimming a trailing dot) — and keeps every other deny entry
in its original order; a deny entry `mail.good.net` is removed when
`good.net` is secure whenever the suffix data resolves both to
`good.net`. -/
theorem removeSecureDomainsByETLD1_spec (ps : Str → Option Str)
    (deny secure : List Str) :
    (∀ d, d ∈ removeSecureDomainsByETLD1 ps deny secure ↔
        d ∈ deny ∧ ¬ ∃ s, s ∈ secure ∧ keyETLD1 ps d = keyETLD1 ps s)
    ∧ List.Sublist (removeSecureDomainsByETLD1 ps deny secure) deny
    ∧ (∀ s et, effectiveTLDPlusOne ps s = some et → keyETLD1 ps s = et)
    ∧ (∀ s, effectiveTLDPlusOne ps s = none → keyETLD1 ps s = s)
    ∧ (∀ s, trimSuffixStr ['.'] s = [] → effectiveTLDPlusOne ps s = none)
    ∧ (ps (str ("mail.good.net")) = some (str ("good.net")) →
        ps (str ("good.net")) = some (str ("good.net")) →
        removeSecureDomainsByETLD1 ps
          [str ("mail.good.net")] [str ("good.net")] = []) := by
  refine ⟨rs_mem ps deny secure, rs_sublist ps deny secure, ?_, ?_, ?_, ?_⟩
  · intro s et h
    simp [keyETLD1, h]
  · intro s h
    simp [keyETLD1, h]
  · intro s h
    simp [effectiveTLDPlusOne, h]
  · intro h1 h2
    have e1 : effectiveTLDPlusOne ps (str ("mail.good.net"))
        = some (str ("good.net")) := by
      unfold effectiveTLDPlusOne
      rw [show trimSuffixStr ['.'] (str ("mail.good.net"))
        = str ("mail.good.net") by decide]
      rw [if_neg (by decide)]
      exact h1
    have e2 : effectiveTLDPlusOne ps (str ("good.net"))
        = some (str ("good.net")) := by
      unfold effectiveTLDPlusOne
      rw [show trimSuffixStr ['.'] (str ("good.net")) = str ("good.net") by decide]
      rw [if_neg (by decide)]
      exact h2
    rw [rs_eq_filter]
    simp [keyETLD1, e1, e2]

/-- Witness for C1, with the hypotheses discharged at the stub suffix
table `psStub`. -/
theorem removeSecureDomainsByETLD1_spec_witness :
    keyETLD1 psStub (str ("mail.good.net")) = str ("good.net")
    ∧ keyETLD1 psStub (str ("other.example")) = str ("other.example")
    ∧ effectiveTLDPlusOne psStub (str (".")) = none
    ∧ removeSecureDomainsByETLD1 psStub
        [str ("mail.good.net")] [str ("good.net")] = [] := by
  have h := removeSecureDomainsByETLD1_spec psStub
    [str ("mail.good.net")] [str ("good.net")]
  exact ⟨h.2.2.1 (str ("mail.good.net")) (str ("good.net")) (by decide),
    h.2.2.2.1 (str ("other.example")) (by decide),
    h.2.2.2.2.1 (str (".")) (by decide),
    h.2.2.2.2.2 (by decide) (by decide)⟩

/-- C2: any string in the pre-secure-merge allow set (the normalized,
prefix-stripped declared allow domains) is absent from the final deny
list: deny is `difference (uniqueSorted deny) (uniqueSorted allow)`
computed before secure is merged into allow, an exact-string set
difference. -/
theorem pipeline_deny_disjoint_allow (ps : Str → Option Str)
    (denyRaw allowRaw secureRaw : List Str) (x : Str)
    (hx : x ∈ cleanDomains (normalizeAndFilter allowRaw)) :
    x ∉ (pipeline ps denyRaw allowRaw secureRaw).1 := by
  intro hmem
  obtain ⟨hne, _, hnotallow⟩ := pipeline_fst_mem hmem
  exact hnotallow ((us_mem _ x).2 ⟨hne, hx⟩)

/-- Witness for C2: `trusted.org` is declared in allow, hence not in the
final deny list even though it also arrived on the deny side. -/
theorem pipeline_deny_disjoint_allow_witness :
    str ("trusted.org") ∉ (pipeline (fun _ => none)
      [str ("trusted.org")] [str ("trusted.org")] []).1 :=
  pipeline_deny_disjoint_allow (fun _ => none) [str ("trusted.org")]
    [str ("trusted.org")] [] (str ("trusted.org")) (by decide)

/-- C3: the final allow list is `uniqueSorted` of the concatenation of
the normalized declared allow domains with the normalized secure
domains (the deduplicated sorted union: membership is union membership
of the non-empty entries), hence a superset of every non-empty
normalized secure entry. -/
theorem pipeline_allow_union (ps : Str → Option Str)
    (denyRaw allowRaw secureRaw : List Str) :
    (pipeline ps denyRaw allowRaw secureRaw).2
        = uniqueSorted (cleanDomains (normalizeAndFilter allowRaw)
            ++ cleanDomains (normalizeAndFilter secureRaw))
    ∧ (∀ x, x ∈ (pipeline ps denyRaw allowRaw secureRaw).2 ↔
        x ≠ [] ∧ (x ∈ cleanDomains (normalizeAndFilter allowRaw)
          ∨ x ∈ cleanDomains (normalizeAndFilter secureRaw)))
    ∧ (∀ s, s ∈ cleanDomains (normalizeAndFilter secureRaw) → s ≠ [] →
        s ∈ (pipeline ps denyRaw allowRaw secureRaw).2) := by
  refine ⟨pipeline_snd ps denyRaw allowRaw secureRaw,
    pipeline_snd_mem ps denyRaw allowRaw secureRaw, ?_⟩
  intro s hs hne
  exact (pipeline_snd_mem ps denyRaw allowRaw secureRaw s).2 ⟨hne, Or.inr hs⟩

/-- Witness for C3: the secure domain `good.net` reaches the final
allow list. -/
theorem pipeline_allow_union_witness :
    str ("good.net") ∈ (pipeline (fun _ => none) [] [] [str ("good.net")]).2 :=
  (pipeline_allow_union (fun _ => none) [] [] [str ("good.net")]).2.2
    (str ("good.net")) (by decide) (by decide)

/-- C4 counterexample: stacked prefixes survive the single strip pass,
so the published invariant "no entry starts with `*.` or `.`" fails:
allow input `*.*.foo` publishes `*.foo`, and `..foo` publishes `.foo`. -/
theorem pipeline_domainSet_counterexample :
    (pipeline (fun _ => none) [] [str ("*.*.foo")] []).2 = [str ("*.foo")]
    ∧ hasPrefixB (str ("*.")) (str ("*.foo")) = true
    ∧ (pipeline (fun _ => none) [] [str ("..foo")] []).2 = [str (".foo")]
    ∧ hasPrefixB (str (".")) (str (".foo")) = true :=
  ⟨by decide, by decide, by decide, by decide⟩

/-- C4 amended: each final published deny and allow list has no
duplicate entries and no empty strings, and every entry equals its own
lowercase form; each entry arises from a normalized input by removing
at most one leading `*.` and then at most one leading `.`, so an entry
can still start with `*.` or `.` when the input stacked prefixes. -/
theorem pipeline_domainSet_invariant (ps : Str → Option Str)
    (dr ar sr : List Str) :
    ((pipeline ps dr ar sr).1).Nodup
    ∧ ((pipeline ps dr ar sr).2).Nodup
    ∧ (∀ x, x ∈ (pipeline ps dr ar sr).1 → x ≠ [] ∧ toLowerStr x = x)
    ∧ (∀ x, x ∈ (pipeline ps dr ar sr).2 → x ≠ [] ∧ toLowerStr x = x)
    ∧ (∀ x, x ∈ (pipeline ps dr ar sr).1 →
        ∃ y, y ∈ normalizeAndFilter dr ∧
          x = trimPrefixStr ['.'] (trimPrefixStr ['*', '.'] y)) := by
  refine ⟨?_, ?_, ?_, ?_, ?_⟩
  · rw [pipeline_fst]
    exact diff_nodup _ (us_nodup _)
  · rw [pipeline_snd]
    exact us_nodup _
  · intro x hx
    obtain ⟨hne, hqd, _⟩ := pipeline_fst_mem hx
    exact ⟨hne, ncd_mem hqd⟩
  · intro x hx
    rw [pipeline_snd_mem] at hx
    rcases hx with ⟨hne, h | h⟩ <;> exact ⟨hne, ncd_mem h⟩
  · intro x hx
    obtain ⟨_, hqd, _⟩ := pipeline_fst_mem hx
    exact clean_mem.1 hqd

/-- Witness for C4 (amended): evaluated on `Example.COM` in deny. -/
theorem pipeline_domainSet_invariant_witness :
    str ("example.com") ≠ []
    ∧ toLowerStr (str ("example.com")) = str ("example.com") :=
  (pipeline_domainSet_invariant (fun _ => none)
    [str ("Example.COM")] [] []).2.2.1 (str ("example.com")) (by decide)

/-- C5 counterexample: the strip pass is two successive `TrimPrefix`
calls, not one attempt in priority order: `*..a` loses its `*.` and then
also the following `.`, yielding `a`, whereas removing only the first
prefix would yield `.a`. -/
theorem cleanDomains_single_strip_counterexample :
    cleanDomains [str ("*..a")] = [str ("a")]
    ∧ (str ("*..a")).drop 2 = str (".a")
    ∧ str ("a") ≠ str (".a") :=
  ⟨by decide, by decide, by decide⟩

/-- C5 amended: the pass removes one leading `*.` when present and then
one leading `.` when the remaining string still starts with `.` (at most
two removals): a string beginning `..` loses only its first dot, but a
string beginning `*..` loses both the `*.` and the following dot. -/
theorem cleanDomains_strip_spec (s : Str) :
    (hasPrefixB (str ("*.")) s = true →
        hasPrefixB (str (".")) (s.drop 2) = true → cleanDomains [s] = [s.drop 3])
    ∧ (hasPrefixB (str ("*.")) s = true →
        hasPrefixB (str (".")) (s.drop 2) = false → cleanDomains [s] = [s.drop 2])
    ∧ (hasPrefixB (str ("*.")) s = false →
        hasPrefixB (str (".")) s = true → cleanDomains [s] = [s.drop 1])
    ∧ (hasPrefixB (str ("*.")) s = false →
        hasPrefixB (str (".")) s = false → cleanDomains [s] = [s])
    ∧ cleanDomains [str ("..a")] = [str (".a")]
    ∧ cleanDomains [str ("*..a")] = [str ("a")] := by
  have hc : cleanDomains [s] = [trimPrefixStr ['.'] (trimPrefixStr ['*', '.'] s)] := rfl
  have hstar : str ("*.")  = ['*', '.'] := rfl
  have hdot : str (".") = ['.'] := rfl
  refine ⟨?_, ?_, ?_, ?_, by decide, by decide⟩
  · intro h1 h2
    rw [hstar] at h1
    rw [hdot] at h2
    rw [hc]
    unfold hasPrefixB at h1 h2
    unfold trimPrefixStr
    rw [if_pos h1]
    simp only [List.length_cons, List.length_singleton, List.length_nil]
    rw [if_pos h2]
    simp [List.drop_drop]
  · intro h1 h2
    rw [hstar] at h1
    rw [hdot] at h2
    rw [hc]
    unfold hasPrefixB at h1 h2
    unfold trimPrefixStr
    rw [if_pos h1]
    simp only [List.length_cons, List.length_singleton, List.length_nil]
    rw [if_neg (by simp [h2])]
  · intro h1 h2
    rw [hstar] at h1
    rw [hdot] at h2
    rw [hc]
    unfold hasPrefixB at h1 h2
    unfold trimPrefixStr
    have hn1 : ¬(['*', '.'].isPrefixOf s = true) := by simp [h1]
    rw [if_neg hn1, if_pos h2]
    simp
  · intro h1 h2
    rw [hstar] at h1
    rw [hdot] at h2
    rw [hc]
    unfold hasPrefixB at h1 h2
    unfold trimPrefixStr
    have hn1 : ¬(['*', '.'].isPrefixOf s = true) := by simp [h1]
    have hn2 : ¬(['.'].isPrefixOf s = true) := by simp [h2]
    rw [if_neg hn1, if_neg hn2]

/-- Witness for C5 (amended): the four prefix cases evaluated. -/
theorem cleanDomains_strip_spec_witness :
    cleanDomains [str ("*.a.b")] = [(str ("*.a.b")).drop 2]
    ∧ cleanDomains [str (".a.b")] = [(str (".a.b")).drop 1]
    ∧ cleanDomains [str ("a.b")] = [str ("a.b")]
    ∧ cleanDomains [str ("*..c")] = [(str ("*..c")).drop 3] :=
  ⟨(cleanDomains_strip_spec (str ("*.a.b"))).2.1 (by decide) (by decide),
   (cleanDomains_strip_spec (str (".a.b"))).2.2.1 (by decide) (by decide),
   (cleanDomains_strip_spec (str ("a.b"))).2.2.2.1 (by decide) (by decide),
   (cleanDomains_strip_spec (str ("*..c"))).1 (by decide) (by decide)⟩

/-- C6: `uniqueSorted` drops empty entries and duplicates and returns a
strictly ascending lexicographic list, depending only on input
membership (not arrival order); consequently both final pipeline lists
— the lists serialized verbatim to the text and JSON artifacts — are
strictly ascending. -/
theorem uniqueSorted_spec (l : List Str) :
    (uniqueSorted l).Sorted (· < ·)
    ∧ (uniqueSorted l).Nodup
    ∧ (∀ x, x ∈ uniqueSorted l ↔ x ≠ [] ∧ x ∈ l)
    ∧ (∀ l', (∀ x, x ∈ l ↔ x ∈ l') → uniqueSorted l = uniqueSorted l')
    ∧ (∀ ps dr ar sr, ((pipeline ps dr ar sr).1).Sorted (· < ·)
        ∧ ((pipeline ps dr ar sr).2).Sorted (· < ·)) := by
  refine ⟨us_sorted l, us_nodup l, us_mem l, us_ext l, ?_⟩
  intro ps dr ar sr
  constructor
  · rw [pipeline_fst]
    exact diff_sorted _ (us_sorted _)
  · rw [pipeline_snd]
    exact us_sorted _

/-- Witness for C6: two arrival orders of the same entries produce the
same output. -/
theorem uniqueSorted_spec_witness :
    uniqueSorted [str ("b"), str ("a"), str ("")]
      = uniqueSorted [str ("a"), str ("a"), str (""), str ("b")] :=
  (uniqueSorted_spec [str ("b"), str ("a"), str ("")]).2.2.2.1
    [str ("a"), str ("a"), str (""), str ("b")]
    (by intro x; simp; tauto)

/-- C7 counterexample: `json.Unmarshal` into `[]string` accepts JSON
`null` — a non-array value — leaving the nil slice with no DecodeError;
a `null` array element likewise decodes (to the empty string) without
error. -/
theorem unmarshal_null_counterexample :
    unmarshalStringSlice Json.null = Except.ok []
    ∧ isStringArrayB Json.null = false
    ∧ unmarshalStringSlice (Json.arr [Json.str (str ("a")), Json.null])
        = Except.ok [str ("a"), []]
    ∧ isStringArrayB (Json.arr [Json.str (str ("a")), Json.null]) = false :=
  ⟨rfl, rfl, rfl, rfl⟩

/-- C7 amended: decoding a fetched body succeeds exactly on JSON `null`
(nil slice) and on arrays whose elements are all strings or `null`;
every other JSON value, and every syntactically invalid body, yields a
DecodeError. -/
theorem unmarshalStringSlice_spec :
    (∀ v, exceptOk (unmarshalStringSlice v) = jsonAccepted v)
    ∧ (∀ (parse : Str → Option Json) b, parse b = none →
        exceptOk (decodeJSONStrings parse b) = false)
    ∧ (∀ (parse : Str → Option Json) b v, parse b = some v →
        exceptOk (decodeJSONStrings parse b) = jsonAccepted v) := by
  have h1 : ∀ v, exceptOk (unmarshalStringSlice v) = jsonAccepted v := by
    intro v
    cases v with
    | arr es => simpa [unmarshalStringSlice, jsonAccepted] using unmarshalStringList_ok es
    | null => rfl
    | bool b => rfl
    | num n => rfl
    | str s => rfl
    | obj kvs => rfl
  refine ⟨h1, ?_, ?_⟩
  · intro parse b h
    simp [decodeJSONStrings, h, exceptOk]
  · intro parse b v h
    have hv := h1 v
    simp only [decodeJSONStrings, h]
    cases hu : unmarshalStringSlice v with
    | ok r =>
      rw [hu] at hv
      simpa [exceptOk] using hv
    | error e =>
      rw [hu] at hv
      simpa [exceptOk] using hv

/-- Witness for C7 (amended): a syntax error and a decoded `null`. -/
theorem unmarshalStringSlice_spec_witness :
    exceptOk (decodeJSONStrings (fun _ => none) (str ("x"))) = false
    ∧ exceptOk (decodeJSONStrings (fun _ => some Json.null) (str ("null")))
        = jsonAccepted Json.null :=
  ⟨unmarshalStringSlice_spec.2.1 (fun _ => none) (str ("x")) rfl,
   unmarshalStringSlice_spec.2.2 (fun _ => some Json.null) (str ("null"))
     Json.null rfl⟩

/-- C8 counterexample: `fetchTextLines` splits fetched content on bare
`"\n"` only, so the line `a\r` (from `a\r\nb`) retains its trailing
carriage return; `splitLines` removes only one trailing `'\r'`, so a
line whose raw content ends in two carriage returns also retains one. -/
theorem fetchTextLines_cr_counterexample :
    fetchTextLinesPure (str ("a\r\nb")) = [str ("a\r"), str ("b")]
    ∧ (str ("a\r")).getLast? = some '\r'
    ∧ splitLines (str ("a\r\r\nb")) = [str ("a\r"), str ("b")] :=
  ⟨by decide, by decide, by decide⟩

/-- C8 amended: `fetchTextLines` splits fetched bytes on `'\n'` alone —
the separators are removed and empty lines preserved (`joinNl` inverts
the split and no piece contains `'\n'`) but a line may retain a trailing
`'\r'`; `splitLines`, used for the local declaration files, additionally
strips exactly one trailing `'\r'` per line and drops the final segment
when it is empty. -/
theorem splitLines_spec (s : Str) :
    splitLines s = dropLastIfEmpty ((splitOnNl s).map stripOneCR)
    ∧ joinNl (splitOnNl s) = s
    ∧ (∀ l, l ∈ splitOnNl s → '\n' ∉ l) :=
  ⟨splitLines_eq s, joinNl_splitOnNl s, fun _ hl => splitOnNl_no_nl hl⟩

/-- Witness for C8 (amended): a split piece of `a\nb` has no newline. -/
theorem splitLines_spec_witness : '\n' ∉ str ("a") :=
  (splitLines_spec (str ("a\nb"))).2.2 (str ("a")) (by decide)

/-- C9: when a write fails, the writes after it are not attempted, the
earlier successful writes persist (no rollback), and `Run` returns zero
counts with the write error — appended after the fetch diagnostic when
one exists, alone otherwise; when every write succeeds, `Run` returns
the final counts and only the (possibly absent) fetch diagnostic. -/
theorem runFinish_spec (diag : Option Str) (deny allow : List Str) :
    (∀ (pre post : List WriteRes) (e : Str), (∀ x ∈ pre, x = none) →
        (writeOutputs (pre ++ some e :: post)).1 = List.range pre.length
        ∧ (writeOutputs (pre ++ some e :: post)).2.1
            = List.range (pre.length + 1)
        ∧ (writeOutputs (pre ++ some e :: post)).2.2 = some e
        ∧ runFinish diag deny allow (pre ++ some e :: post)
            = (0, 0, some (combineErr diag e)))
    ∧ (∀ w, (∀ x ∈ w, x = none) →
        (writeOutputs w).2.2 = none
        ∧ runFinish diag deny allow w = (deny.length, allow.length, diag)) := by
  constructor
  · intro pre post e h
    have hw : writeOutputs (pre ++ some e :: post)
        = (List.range' 0 pre.length, List.range' 0 (pre.length + 1), some e) :=
      writeSeq_fail pre 0 e post h
    refine ⟨?_, ?_, ?_, ?_⟩
    · rw [hw, List.range_eq_range']
    · rw [hw, List.range_eq_range']
    · rw [hw]
    · unfold runFinish
      rw [hw]
  · intro w h
    have hw : writeOutputs w = (List.range' 0 w.length, List.range' 0 w.length, none) :=
      writeSeq_all_none w 0 h
    refine ⟨by rw [hw], ?_⟩
    unfold runFinish
    rw [hw]

/-- Witness for C9: a failing second write with a pre-existing fetch
diagnostic, and an all-success run. -/
theorem runFinish_spec_witness :
    runFinish (some (str ("fetch fail"))) [str ("a")] [str ("b"), str ("c")]
        ([none] ++ some (str ("disk full")) :: [none, none])
      = (0, 0, some (str ("fetch fail; disk full")))
    ∧ runFinish none [str ("a")] [str ("b"), str ("c")] [none, none, none, none]
      = (1, 2, none) := by
  constructor
  · rw [((runFinish_spec (some (str ("fetch fail"))) [str ("a")]
      [str ("b"), str ("c")]).1 [none] [none, none] (str ("disk full"))
      (by simp)).2.2.2]
    decide
  · exact ((runFinish_spec none [str ("a")] [str ("b"), str ("c")]).2
      [none, none, none, none] (by simp)).2

/-- C10: `difference a b` is a sublist of `a` — it keeps the relative
order of `a` and introduces no new elements — so the deny difference of
the sorted duplicate-free `uniqueSorted a` is itself sorted and
duplicate-free with no further sorting. -/
theorem difference_spec (a b : List Str) :
    List.Sublist (difference a b) a
    ∧ (∀ x, x ∈ difference a b ↔ x ∈ a ∧ x ∉ b)
    ∧ (a.Sorted (· < ·) → (difference a b).Sorted (· < ·))
    ∧ (a.Nodup → (difference a b).Nodup)
    ∧ (difference (uniqueSorted a) b).Sorted (· < ·)
    ∧ (difference (uniqueSorted a) b).Nodup :=
  ⟨diff_sublist a b, diff_mem a b, fun h => diff_sorted b h,
   fun h => diff_nodup b h, diff_sorted b (us_sorted a),
   diff_nodup b (us_nodup a)⟩

/-- Witness for C10: evaluated on a concrete sorted list. -/
theorem difference_spec_witness :
    (difference [str ("a"), str ("b")] [str ("b")]).Sorted (· < ·)
    ∧ (difference [str ("a"), str ("b")] [str ("b")]).Nodup :=
  ⟨(difference_spec [str ("a"), str ("b")] [str ("b")]).2.2.1 (by decide),
   (difference_spec [str ("a"), str ("b")] [str ("b")]).2.2.2.1 (by decide)⟩
